import Mathlib

/-!
Verification of the linenote VS Code extension core (`src/extension.ts` and the
note/noteUtil modules it drives).  Pure functions of the source are embedded as
Lean definitions; the host's editor state and the note storage are made explicit
parameters.  Modules of the repository that are imported by `extension.ts` but
whose sources are not available (`note.ts`, `noteUtil.ts`, `decorator.ts`) are
modelled from the specification; each such definition carries a doc comment
saying so.  Strings are embedded as `List Char`, JS machine integers as `Int`
or `Nat` (all quantities involved are small and non-negative, so no overflow
arises), and asynchronous storage operations as explicit state passing over an
association list.
-/

namespace Linenote

/-! ### Configuration values (`vscode.workspace.getConfiguration().get(...)`)

`get` returns an arbitrary JSON-ish value; `extension.ts` tests it for JS
truthiness (`if (enable)`) and with `typeof interval === "number"`.  We embed
the relevant fragment of JS values. -/

/-- A configuration value as returned by `getConfiguration().get`. -/
inductive ConfigValue where
  | bool (b : Bool)
  | num (n : Int)
  | str (s : String)
  | undef
deriving DecidableEq, Repr

/-- JS truthiness of a configuration value: `false`, `0`, `""` and
`undefined` are falsy, everything else truthy (embedding `if (enable)`). -/
def truthy : ConfigValue → Bool
  | .bool b => b
  | .num n => n != 0
  | .str s => s.length != 0
  | .undef => false

/-- Embeds `typeof interval === "number" && interval >= 0` from
`extension.ts` line 55. -/
def isValidInterval : ConfigValue → Bool
  | .num n => decide (0 ≤ n)
  | _ => false

/-! ### The `automaticallyDelete` loop (`extension.ts` lines 44-63)

One iteration of the loop: it bails out when `disposed`, reads
`linenote.automaticallyDelete`; if truthy it reads
`linenote.automaticallyDeleteInterval`; if that is a number `>= 0` it runs
`removeNotCorrespondingNotes()`, measures the elapsed `duration`, and schedules
the next iteration with `setTimeout(..., Math.max(0, interval - duration))`. -/

/-- The observable effects of one `automaticallyDelete` iteration:
whether the orphan sweep ran, whether a successor iteration was scheduled,
and with which `setTimeout` delay. -/
structure SweepAction where
  sweeps : Bool
  schedules : Bool
  delay : Option Int
deriving DecidableEq, Repr

/-- One iteration of `automaticallyDelete` (`extension.ts` lines 44-63).
`duration` is the measured elapsed time of `removeNotCorrespondingNotes`. -/
def automaticallyDelete (disposed : Bool) (enable interval : ConfigValue)
    (duration : Int) : SweepAction :=
  if disposed then ⟨false, false, none⟩
  else if truthy enable then
    match interval with
    | .num n =>
      if 0 ≤ n then ⟨true, true, some (max 0 (n - duration))⟩
      else ⟨false, false, none⟩
    | _ => ⟨false, false, none⟩
  else ⟨false, false, none⟩

/-! ### `getSelectionLineRange` (`extension.ts` lines 66-74) -/

/-- An editor selection: VS Code guarantees `start ≤ end`; line numbers are
0-based. -/
structure Selection where
  startLine : Nat
  endLine : Nat
deriving DecidableEq, Repr

/-- Embeds `getSelectionLineRange`: adds 1 to the editor's 0-based start and
end line numbers (`extension.ts` lines 66-74). -/
def getSelectionLineRange (sel : Selection) : Nat × Nat :=
  (sel.startLine + 1, sel.endLine + 1)

/-! ### PathCodec

Modelled from the spec: `note.ts` / `noteUtil.ts` (the `PathCodec`) are not
under `src/`.  Per the spec, a note path is "a deterministic, reversible
string built from a sanitized copy of `sourceFilePath`'s path segments plus a
line-range and uid suffix, using a delimiter that cannot appear in sanitized
path segments"; segments may contain the delimiter, which sanitization
escapes unambiguously.  A source path is a non-empty list of separator-free
segments; the uid is numeric (minted from time plus randomness). -/

/-- The codec delimiter separating the path part, `fromLine`, `toLine` and
`uid` in a note path. -/
def dlm : Char := '#'

/-- The escape character used by segment sanitization. -/
def escChar : Char := '%'

/-- The path-segment separator. -/
def sep : Char := '/'

/-- Modelled from the spec: sanitization of one path segment — the delimiter
and the escape character are substituted by unambiguous escape pairs, so a
sanitized segment never contains the delimiter. -/
def escSeg : List Char → List Char
  | [] => []
  | c :: cs =>
    if c = dlm then escChar :: '1' :: escSeg cs
    else if c = escChar then escChar :: '2' :: escSeg cs
    else c :: escSeg cs

/-- Modelled from the spec: the inverse of segment sanitization. -/
def unescSeg : List Char → List Char
  | [] => []
  | c :: cs =>
    if c = escChar then
      match cs with
      | [] => []
      | d :: ds => (if d = '1' then dlm else if d = '2' then escChar else d) :: unescSeg ds
    else c :: unescSeg cs

/-- The decimal digit character for `d < 10` (any larger argument is clamped
to `'9'`; the codec only applies it to digits). -/
def digitChar : Nat → Char
  | 0 => '0' | 1 => '1' | 2 => '2' | 3 => '3' | 4 => '4'
  | 5 => '5' | 6 => '6' | 7 => '7' | 8 => '8' | _ => '9'

/-- The numeric value of a decimal digit character. -/
def digitVal (c : Char) : Nat := c.toNat - 48

/-- Fuel-driven core of decimal rendering; the published `natChars` always
supplies enough fuel. -/
def natCharsCore : Nat → Nat → List Char → List Char
  | 0, _, acc => acc
  | fuel + 1, n, acc =>
    if n < 10 then digitChar n :: acc
    else natCharsCore fuel (n / 10) (digitChar (n % 10) :: acc)

/-- Decimal rendering of a natural number, most significant digit first
(`natChars 0 = ['0']`, as JS `String(0)`). -/
def natChars (n : Nat) : List Char := natCharsCore (n + 1) n []

/-- Parses a decimal numeral; `none` when some character is not a digit. -/
def parseNatM (cs : List Char) : Option Nat :=
  if cs.all Char.isDigit then some (cs.foldl (fun a c => a * 10 + digitVal c) 0) else none

/-- Joins a list of parts with a single separator character between parts. -/
def joinSegs (x : Char) : List (List Char) → List Char
  | [] => []
  | [s] => s
  | s :: rest => s ++ x :: joinSegs x rest

/-- Splits a character list at every occurrence of `x` (the occurrences are
dropped); inverse of `joinSegs` on `x`-free parts. -/
def splitOnC (x : Char) : List Char → List (List Char)
  | [] => [[]]
  | c :: cs =>
    if c = x then [] :: splitOnC x cs
    else
      match splitOnC x cs with
      | [] => [[c]]
      | h :: t => (c :: h) :: t

/-- Modelled from the spec: `encode(sourceFilePath, fromLine, toLine, uid)`
joins the sanitized path segments with the separator and appends the
delimiter-separated line range and uid. -/
def encode (segs : List (List Char)) (fromLine toLine uid : Nat) : List Char :=
  joinSegs sep (segs.map escSeg)
    ++ (dlm :: (natChars fromLine ++ (dlm :: (natChars toLine ++ (dlm :: natChars uid)))))

/-- Modelled from the spec: `decode(notePath)` — splits on the delimiter into
exactly four parts, parses the numeric parts and undoes segment
sanitization; `none` when the path does not match the naming grammar. -/
def decode (p : List Char) : Option (List (List Char) × Nat × Nat × Nat) :=
  match splitOnC dlm p with
  | [pathPart, fromPart, toPart, uidPart] =>
    match parseNatM fromPart, parseNatM toPart, parseNatM uidPart with
    | some f, some t, some u => some ((splitOnC sep pathPart).map unescSeg, f, t, u)
    | _, _, _ => none
  | _ => none

/-- Modelled from the spec: `isNotePath(path)` is true iff the path matches
the note naming grammar (paths are taken relative to the notes root). -/
def isNotePath (p : List Char) : Bool := (decode p).isSome

/-! ### Note entity

`note.ts` is not under `src/`; the entity is modelled from the spec.  Only
the fields and the pure `isOverlapped` predicate are needed by the
`extension.ts` handlers we verify. -/

/-- A note: identity `(sourceFilePath, fromLine, toLine, uid)` with 1-based
inclusive line range. -/
structure Note where
  fsPath : List Char
  fromLine : Nat
  toLine : Nat
  uid : Nat
deriving DecidableEq, Repr

/-- Modelled from the spec: `isOverlapped(from, to)` is true iff the inclusive
ranges `[from, to]` and `[fromLine, toLine]` intersect (touching at a single
line counts as overlap). -/
def Note.isOverlapped (note : Note) (fromL toL : Nat) : Bool :=
  decide (fromL ≤ note.toLine) && decide (note.fromLine ≤ toL)

/-! ### Note storage

The note files on disk, as an association list from note path to body
(for the close handler) or from note identity to body (for `addNote`). -/

/-- Storage keyed by note path. -/
abbrev NoteStore := List (List Char × List Char)

/-- Deletes the note file at path `p` (embedding `note.remove()`). -/
def removeNoteFile (p : List Char) (store : NoteStore) : NoteStore :=
  store.filter (fun e => !(e.1 = p : Bool))

/-- JS `String.prototype.trim`: removes whitespace from both ends
(embedding `body.trim()` in the close handler). -/
def trimChars (s : List Char) : List Char :=
  ((s.dropWhile Char.isWhitespace).reverse.dropWhile Char.isWhitespace).reverse

/-! ### The `onDidCloseTextDocument` handler (`extension.ts` lines 95-106)

On close of a document whose path is a note path, the handler reads the note
body and removes the note iff `!body.trim().length`.  A missing note file
makes `note.read()` reject, so nothing is removed then. -/

/-- Embeds the close handler: the storage after closing the document at
`fsPath`. -/
def onDidCloseTextDocument (isNote : List Char → Bool) (store : NoteStore)
    (fsPath : List Char) : NoteStore :=
  if isNote fsPath then
    match store.lookup fsPath with
    | some body => if (trimChars body).length = 0 then removeNoteFile fsPath store else store
    | none => store
  else store

/-! ### The `linenote.addNote` command (`extension.ts` lines 120-137)

With an active editor on `fsPath`: returns early when `isNotePath fsPath`;
otherwise constructs the note for the selection, writes an empty body only
when `noteExists()` is false, and opens the note. -/

/-- A note identity as used by `Note.fromFsPath` existence checks. -/
abbrev NoteId := (List Char × Nat × Nat)

/-- Storage keyed by note identity `(fsPath, from, to)`; the value is the
note body. -/
abbrev IdStore := List (NoteId × List Char)

/-- The outcome of `linenote.addNote`: the updated storage and the note that
was opened, if any. -/
structure AddOutcome where
  store : IdStore
  opened : Option NoteId

/-- Embeds the `linenote.addNote` command body for an active editor on
`fsPath` with selection lines `[fromL, toL]`. -/
def addNote (isNote : List Char → Bool) (store : IdStore) (fsPath : List Char)
    (fromL toL : Nat) : AddOutcome :=
  if isNote fsPath then ⟨store, none⟩
  else
    let key : NoteId := (fsPath, fromL, toL)
    if (store.lookup key).isSome then ⟨store, some key⟩
    else ⟨(key, []) :: store, some key⟩

/-! ### The `linenote.openNote` command, cursor branch
(`extension.ts` lines 147-160) -/

/-- Embeds the cursor branch of `linenote.openNote`: the notes opened.  The
handler returns early (opening nothing) when the document is a note;
otherwise it opens every corresponding note overlapping the selection. -/
def openNoteCursor (isNote : List Char → Bool) (notes : List Note)
    (fsPath : List Char) (fromL toL : Nat) : List Note :=
  if isNote fsPath then []
  else notes.filter (fun n => n.isOverlapped fromL toL)

/-! ### The `linenote.removeNote` command, cursor branch
(`extension.ts` lines 164-188) -/

/-- The outcome of the cursor branch of `linenote.removeNote`: the note
removed (if any) and whether a decoration refresh was triggered. -/
structure RemoveOutcome where
  removed : Option Note
  refreshed : Bool
deriving DecidableEq, Repr

/-- Embeds the cursor branch of `linenote.removeNote`: early return when the
document is a note path; otherwise remove the first corresponding note that
overlaps the selection, refreshing decorations only when one was found. -/
def removeNoteCursor (isNote : List Char → Bool) (notes : List Note)
    (fsPath : List Char) (fromL toL : Nat) : RemoveOutcome :=
  if isNote fsPath then ⟨none, false⟩
  else
    match notes.find? (fun n => n.isOverlapped fromL toL) with
    | some n => ⟨some n, true⟩
    | none => ⟨none, false⟩

/-- The notes on disk after the cursor branch of `linenote.removeNote`: only
the found note's file is deleted. -/
def removeNoteCursorDisk (isNote : List Char → Bool) (notes : List Note)
    (fsPath : List Char) (fromL toL : Nat) : List Note :=
  match (removeNoteCursor isNote notes fsPath fromL toL).removed with
  | some n => notes.erase n
  | none => notes

/-! ### The `onDidChangeTextDocument` handler (`extension.ts` lines 86-93)

The handler reacts only when the changed document is the active editor's
document; then it schedules the (debounced) decoration recomputation. -/

/-- Embeds the change handler's trigger: documents are identified by ids
(`===` object identity); returns whether recomputation is scheduled. -/
def onDidChangeTextDocument (activeDoc : Option Nat) (eventDoc : Nat) : Bool :=
  match activeDoc with
  | some d => d == eventDoc
  | none => false

/-! ### RangeReconciler

Modelled from the spec: the diff-based range reconciliation is not under
`src/` (it lives behind `decorator.ts`).  Per the spec, an edit region
entirely before `fromLine` shifts both bounds by the net line delta; a region
entirely after `toLine` leaves the note unchanged; a region covering the
whole range orphans the note; otherwise the range is clipped/expanded to the
surviving lines. -/

/-- A line-level edit: the deleted region starts at 1-based `startLine` and
covers `deleted` lines; `inserted` lines are inserted in its place. -/
structure Edit where
  startLine : Nat
  deleted : Nat
  inserted : Nat
deriving DecidableEq, Repr

/-- The outcome of reconciling one note against one edit. -/
inductive ReconcileResult where
  | shifted (fromL toL : Nat)
  | orphaned
deriving DecidableEq, Repr

/-- Modelled from the spec: recomputes a note's range `[fromL, toL]` after an
edit.  Region entirely before the range shifts both bounds by the net delta;
entirely after leaves them; covering the whole range orphans the note;
otherwise the range is clipped/expanded to the surviving lines. -/
def reconcileNote (e : Edit) (fromL toL : Nat) : ReconcileResult :=
  if e.startLine + e.deleted ≤ fromL then
    .shifted (fromL + e.inserted - e.deleted) (toL + e.inserted - e.deleted)
  else if toL < e.startLine then
    .shifted fromL toL
  else if e.startLine ≤ fromL ∧ toL < e.startLine + e.deleted then
    .orphaned
  else
    .shifted (min fromL e.startLine)
      (toL + e.inserted - min e.deleted (toL + 1 - e.startLine))

end Linenote

/-! ## Theorems -/

namespace Linenote

/-- C5: the next sweep iteration is scheduled after `max 0 (interval - duration)`
(from `setTimeout(automaticallyDelete, Math.max(0, interval - duration))`),
so the start-to-start period `duration + delay` equals `max duration interval`
and is at least `interval`. -/
theorem sweep_interval_is_floor (enable interval : ConfigValue) (n duration : Int)
    (hi : interval = .num n) (hn : 0 ≤ n) (hd : 0 ≤ duration)
    (he : truthy enable = true) :
    (automaticallyDelete false enable interval duration).delay
        = some (max 0 (n - duration)) ∧
      duration + max 0 (n - duration) = max duration n ∧
      n ≤ duration + max 0 (n - duration) := by
  subst hi
  have hd0 : (0 : Int) ≤ duration := hd
  refine ⟨by simp [automaticallyDelete, he, hn], ?_, ?_⟩
  · rcases le_total n duration with h | h
    · rw [max_eq_left (by omega), max_eq_left h]; omega
    · rw [max_eq_right (by omega), max_eq_right h]; omega
  · rcases le_total n duration with h | h <;>
      [rw [max_eq_left (by omega)]; rw [max_eq_right (by omega)]] <;> omega

/-- Witness for C5 at `interval = 100`, `duration = 30`. -/
theorem sweep_interval_is_floor_witness :
    (automaticallyDelete false (.bool true) (.num 100) 30).delay = some (max 0 (100 - 30)) ∧
      (30 : Int) + max 0 (100 - 30) = max 30 100 ∧
      (100 : Int) ≤ 30 + max 0 (100 - 30) :=
  sweep_interval_is_floor (.bool true) (.num 100) 100 30 rfl (by decide) (by decide) (by decide)

/-- An `automaticallyDelete` iteration runs the sweep exactly when it is not
disposed, the enable flag is truthy and the interval is a non-negative number;
the same condition governs scheduling of the successor iteration. -/
theorem automaticallyDelete_run_iff (disposed : Bool) (enable interval : ConfigValue)
    (duration : Int) :
    ((automaticallyDelete disposed enable interval duration).sweeps = true ↔
        disposed = false ∧ truthy enable = true ∧ isValidInterval interval = true) ∧
      ((automaticallyDelete disposed enable interval duration).schedules = true ↔
        disposed = false ∧ truthy enable = true ∧ isValidInterval interval = true) := by
  cases interval <;> cases disposed <;>
    simp [automaticallyDelete, isValidInterval] <;> split_ifs <;> simp_all

/-- C6: an iteration of `automaticallyDelete` performs the sweep only when
`linenote.automaticallyDelete` is truthy and the interval is a number `>= 0`;
when that condition fails, the iteration neither sweeps nor schedules a
successor. -/
theorem sweep_requires_config (disposed : Bool) (enable interval : ConfigValue)
    (duration : Int) :
    ((automaticallyDelete disposed enable interval duration).sweeps = true →
        truthy enable = true ∧ isValidInterval interval = true) ∧
      (¬(truthy enable = true ∧ isValidInterval interval = true) →
        (automaticallyDelete disposed enable interval duration).sweeps = false ∧
          (automaticallyDelete disposed enable interval duration).schedules = false) := by
  obtain ⟨hs, hc⟩ := automaticallyDelete_run_iff disposed enable interval duration
  constructor
  · intro h
    exact (hs.mp h).2
  · intro h
    constructor
    · rcases hb : (automaticallyDelete disposed enable interval duration).sweeps with _ | _
      · rfl
      · exact absurd ⟨(hs.mp hb).2.1, (hs.mp hb).2.2⟩ h
    · rcases hb : (automaticallyDelete disposed enable interval duration).schedules with _ | _
      · rfl
      · exact absurd ⟨(hc.mp hb).2.1, (hc.mp hb).2.2⟩ h

/-- Witness for C6: with the enable flag `false`, no sweep runs and no
successor is scheduled. -/
theorem sweep_requires_config_witness :
    (automaticallyDelete false (.bool false) (.num 100) 30).sweeps = false ∧
      (automaticallyDelete false (.bool false) (.num 100) 30).schedules = false :=
  (sweep_requires_config false (.bool false) (.num 100) 30).2 (by decide)

/-- C8: `getSelectionLineRange` on a selection with `start ≤ end` yields
`[from, to]` with `1 ≤ from ≤ to`, each one more than the 0-based editor
line. -/
theorem getSelectionLineRange_valid (sel : Selection)
    (h : sel.startLine ≤ sel.endLine) :
    1 ≤ (getSelectionLineRange sel).1 ∧
      (getSelectionLineRange sel).1 ≤ (getSelectionLineRange sel).2 ∧
      (getSelectionLineRange sel).1 = sel.startLine + 1 ∧
      (getSelectionLineRange sel).2 = sel.endLine + 1 := by
  refine ⟨Nat.succ_le_succ (Nat.zero_le _), Nat.succ_le_succ h, rfl, rfl⟩

/-- Witness for C8 at the selection `(2, 5)` (0-based). -/
theorem getSelectionLineRange_valid_witness :
    1 ≤ (getSelectionLineRange ⟨2, 5⟩).1 ∧
      (getSelectionLineRange ⟨2, 5⟩).1 ≤ (getSelectionLineRange ⟨2, 5⟩).2 ∧
      (getSelectionLineRange ⟨2, 5⟩).1 = 2 + 1 ∧
      (getSelectionLineRange ⟨2, 5⟩).2 = 5 + 1 :=
  getSelectionLineRange_valid ⟨2, 5⟩ (by decide)

/-- Unescaping steps over a head character that is not the escape
character. -/
theorem unescSeg_cons_ne (c : Char) (cs : List Char) (h : ¬c = escChar) :
    unescSeg (c :: cs) = c :: unescSeg cs := by
  cases cs <;> simp [unescSeg, h]

/-- Undoing sanitization recovers the original segment. -/
theorem unescSeg_escSeg (s : List Char) : unescSeg (escSeg s) = s := by
  have h2d : escChar ≠ dlm := by decide
  have h21 : ('2' : Char) ≠ '1' := by decide
  induction s with
  | nil => rfl
  | cons c cs ih =>
    by_cases h1 : c = dlm
    · subst h1
      simp [escSeg, unescSeg, ih]
    · by_cases h2 : c = escChar
      · subst h2
        simp [escSeg, unescSeg, h2d, h21, ih]
      · rw [show escSeg (c :: cs) = c :: escSeg cs from by simp [escSeg, h1, h2]]
        rw [unescSeg_cons_ne c _ h2, ih]

/-- A sanitized segment never contains the delimiter. -/
theorem dlm_not_mem_escSeg (s : List Char) : dlm ∉ escSeg s := by
  have hed : escChar ≠ dlm := by decide
  have h1d : ('1' : Char) ≠ dlm := by decide
  have h2d : ('2' : Char) ≠ dlm := by decide
  induction s with
  | nil => simp [escSeg]
  | cons c cs ih =>
    simp only [escSeg]
    by_cases hc1 : c = dlm
    · rw [if_pos hc1]
      intro hmem
      rcases List.mem_cons.mp hmem with h | hmem2
      · exact hed h.symm
      rcases List.mem_cons.mp hmem2 with h | hmem3
      · exact h1d h.symm
      · exact ih hmem3
    · by_cases hc2 : c = escChar
      · rw [if_neg hc1, if_pos hc2]
        intro hmem
        rcases List.mem_cons.mp hmem with h | hmem2
        · exact hed h.symm
        rcases List.mem_cons.mp hmem2 with h | hmem3
        · exact h2d h.symm
        · exact ih hmem3
      · rw [if_neg hc1, if_neg hc2]
        intro hmem
        rcases List.mem_cons.mp hmem with h | hmem2
        · exact hc1 h.symm
        · exact ih hmem2

/-- Sanitization does not introduce the path separator. -/
theorem sep_not_mem_escSeg (s : List Char) : sep ∉ s → sep ∉ escSeg s := by
  have hes : escChar ≠ sep := by decide
  have h1s : ('1' : Char) ≠ sep := by decide
  have h2s : ('2' : Char) ≠ sep := by decide
  induction s with
  | nil => intro _; simp [escSeg]
  | cons c cs ih =>
    intro hs
    have hcs : sep ∉ cs := fun h => hs (List.mem_cons_of_mem c h)
    have hcsep : c ≠ sep := by rintro rfl; exact hs (List.mem_cons_self _ _)
    simp only [escSeg]
    by_cases hc1 : c = dlm
    · rw [if_pos hc1]
      intro hmem
      rcases List.mem_cons.mp hmem with h | hmem2
      · exact hes h.symm
      rcases List.mem_cons.mp hmem2 with h | hmem3
      · exact h1s h.symm
      · exact ih hcs hmem3
    · by_cases hc2 : c = escChar
      · rw [if_neg hc1, if_pos hc2]
        intro hmem
        rcases List.mem_cons.mp hmem with h | hmem2
        · exact hes h.symm
        rcases List.mem_cons.mp hmem2 with h | hmem3
        · exact h2s h.symm
        · exact ih hcs hmem3
      · rw [if_neg hc1, if_neg hc2]
        intro hmem
        rcases List.mem_cons.mp hmem with h | hmem2
        · exact hcsep h.symm
        · exact ih hcs hmem2

/-- Splitting a list free of the splitting character yields one part. -/
theorem splitOnC_not_mem (x : Char) (l : List Char) (h : x ∉ l) :
    splitOnC x l = [l] := by
  induction l with
  | nil => rfl
  | cons c cs ih =>
    have hcx : ¬(c = x) := by rintro rfl; exact h (List.mem_cons_self c cs)
    have hcs : x ∉ cs := fun hc => h (List.mem_cons_of_mem c hc)
    simp [splitOnC, hcx, ih hcs]

/-- Splitting strips the first part before the first occurrence of the
splitting character. -/
theorem splitOnC_append (x : Char) (l rest : List Char) (h : x ∉ l) :
    splitOnC x (l ++ x :: rest) = l :: splitOnC x rest := by
  induction l with
  | nil => simp [splitOnC]
  | cons c cs ih =>
    have hcx : ¬(c = x) := by rintro rfl; exact h (List.mem_cons_self c cs)
    have hcs : x ∉ cs := fun hc => h (List.mem_cons_of_mem c hc)
    simp [splitOnC, hcx, ih hcs]

/-- `splitOnC` is a left inverse of `joinSegs` on non-empty lists of parts
free of the joining character. -/
theorem splitOnC_joinSegs (x : Char) (ls : List (List Char))
    (h : ∀ l ∈ ls, x ∉ l) (hne : ls ≠ []) :
    splitOnC x (joinSegs x ls) = ls := by
  induction ls with
  | nil => exact absurd rfl hne
  | cons s rest ih =>
    cases rest with
    | nil => exact splitOnC_not_mem x s (h s (List.mem_cons_self s []))
    | cons s2 rest2 =>
      have h1 : x ∉ s := h s (List.mem_cons_self _ _)
      have h2 : ∀ l ∈ s2 :: rest2, x ∉ l := fun l hl => h l (List.mem_cons_of_mem s hl)
      rw [show joinSegs x (s :: s2 :: rest2) = s ++ x :: joinSegs x (s2 :: rest2) from rfl]
      rw [splitOnC_append x s _ h1, ih h2 (by simp)]

/-- A character different from the joiner and absent from every part is
absent from the join. -/
theorem not_mem_joinSegs (x j : Char) (ls : List (List Char))
    (hxj : x ≠ j) (h : ∀ l ∈ ls, x ∉ l) : x ∉ joinSegs j ls := by
  induction ls with
  | nil => simp [joinSegs]
  | cons s rest ih =>
    cases rest with
    | nil => exact h s (List.mem_cons_self _ _)
    | cons s2 rest2 =>
      rw [show joinSegs j (s :: s2 :: rest2) = s ++ j :: joinSegs j (s2 :: rest2) from rfl]
      intro hmem
      rcases List.mem_append.mp hmem with hm | hm
      · exact h s (List.mem_cons_self _ _) hm
      rcases List.mem_cons.mp hm with h0 | hm2
      · exact hxj h0
      · exact ih (fun l hl => h l (List.mem_cons_of_mem s hl)) hm2

/-- With enough fuel, the rendering core appends its output to the
accumulator. -/
theorem natCharsCore_acc (n : Nat) : ∀ fuel acc, n < fuel →
    natCharsCore fuel n acc = natChars n ++ acc := by
  induction n using Nat.strong_induction_on with
  | _ n ih =>
    intro fuel acc hf
    match fuel with
    | 0 => omega
    | fuel + 1 =>
      unfold natChars
      by_cases h10 : n < 10
      · simp [natCharsCore, h10]
      · have hd : n / 10 < n := by omega
        rw [show natCharsCore (fuel + 1) n acc
              = natCharsCore fuel (n / 10) (digitChar (n % 10) :: acc) from by
            simp [natCharsCore, h10]]
        rw [show natCharsCore (n + 1) n []
              = natCharsCore n (n / 10) (digitChar (n % 10) :: []) from by
            simp [natCharsCore, h10]]
        rw [ih (n / 10) hd fuel _ (by omega)]
        rw [ih (n / 10) hd n _ (by omega)]
        simp

/-- The defining recurrence of `natChars`. -/
theorem natChars_eq (n : Nat) :
    natChars n
      = if n < 10 then [digitChar n] else natChars (n / 10) ++ [digitChar (n % 10)] := by
  by_cases h10 : n < 10
  · simp [natChars, natCharsCore, h10]
  · rw [if_neg h10]
    unfold natChars
    rw [show natCharsCore (n + 1) n []
          = natCharsCore n (n / 10) (digitChar (n % 10) :: []) from by
        simp [natCharsCore, h10]]
    exact natCharsCore_acc (n / 10) n [digitChar (n % 10)] (by omega)

/-- Digit characters round-trip through `digitVal`. -/
theorem digitVal_digitChar : ∀ d, d < 10 → digitVal (digitChar d) = d := by decide

/-- Digit characters satisfy `Char.isDigit`. -/
theorem digitChar_isDigit : ∀ d, d < 10 → (digitChar d).isDigit = true := by decide

/-- Digit characters are neither the delimiter nor the separator. -/
theorem digitChar_ne_dlm_sep : ∀ d, d < 10 → digitChar d ≠ dlm ∧ digitChar d ≠ sep := by
  decide

/-- Every character of a decimal rendering is a digit character. -/
theorem natChars_digits (n : Nat) : ∀ c ∈ natChars n, ∃ d, d < 10 ∧ c = digitChar d := by
  induction n using Nat.strong_induction_on with
  | _ n ih =>
    intro c hc
    rw [natChars_eq] at hc
    by_cases h10 : n < 10
    · rw [if_pos h10] at hc
      simp only [List.mem_singleton] at hc
      exact ⟨n, h10, hc⟩
    · rw [if_neg h10] at hc
      rcases List.mem_append.mp hc with hc | hc
      · exact ih (n / 10) (by omega) c hc
      · simp only [List.mem_singleton] at hc
        exact ⟨n % 10, by omega, hc⟩

/-- Folding the decimal evaluation step over a rendering recovers the
number (shifted under any accumulator). -/
theorem natChars_foldl (n : Nat) : ∀ a : Nat,
    (natChars n).foldl (fun a c => a * 10 + digitVal c) a
      = a * 10 ^ (natChars n).length + n := by
  induction n using Nat.strong_induction_on with
  | _ n ih =>
    intro a
    rw [natChars_eq]
    by_cases h10 : n < 10
    · rw [if_pos h10]
      simp only [List.foldl, digitVal_digitChar n h10, List.length_cons,
        List.length_nil, Nat.zero_add, pow_one]
    · rw [if_neg h10]
      rw [List.foldl_append, ih (n / 10) (by omega) a]
      simp only [List.foldl]
      rw [digitVal_digitChar (n % 10) (by omega)]
      rw [List.length_append, List.length_singleton]
      have hdm : n / 10 * 10 + n % 10 = n := by omega
      calc (a * 10 ^ (natChars (n / 10)).length + n / 10) * 10 + n % 10
          = a * (10 ^ (natChars (n / 10)).length * 10) + (n / 10 * 10 + n % 10) := by
            ring
        _ = a * 10 ^ ((natChars (n / 10)).length + 1) + n := by
            rw [pow_succ, hdm]

/-- Parsing a decimal rendering recovers the number. -/
theorem parseNatM_natChars (n : Nat) : parseNatM (natChars n) = some n := by
  have hall : (natChars n).all Char.isDigit = true := by
    rw [List.all_eq_true]
    intro c hc
    obtain ⟨d, hd, rfl⟩ := natChars_digits n c hc
    exact digitChar_isDigit d hd
  unfold parseNatM
  rw [if_pos hall, natChars_foldl n 0]
  simp

/-- The delimiter never occurs in a decimal rendering. -/
theorem dlm_not_mem_natChars (n : Nat) : dlm ∉ natChars n := by
  intro h
  obtain ⟨d, hd, heq⟩ := natChars_digits n dlm h
  exact (digitChar_ne_dlm_sep d hd).1 heq.symm

/-- The separator never occurs in a decimal rendering. -/
theorem sep_not_mem_natChars (n : Nat) : sep ∉ natChars n := by
  intro h
  obtain ⟨d, hd, heq⟩ := natChars_digits n sep h
  exact (digitChar_ne_dlm_sep d hd).2 heq.symm

/-- C1: the round-trip law — decoding an encoded note path recovers exactly
the identity tuple, for every valid source path (a non-empty list of
separator-free segments, which may contain spaces, unicode, or the codec's
own delimiter), line range and uid. -/
theorem decode_encode (segs : List (List Char)) (fromLine toLine uid : Nat)
    (hne : segs ≠ []) (hsep : ∀ s ∈ segs, sep ∉ s) :
    decode (encode segs fromLine toLine uid) = some (segs, fromLine, toLine, uid) := by
  have hds : dlm ≠ sep := by decide
  have hpath_dlm : dlm ∉ joinSegs sep (segs.map escSeg) := by
    refine not_mem_joinSegs dlm sep _ hds ?_
    intro l hl
    obtain ⟨s0, hs0, rfl⟩ := List.mem_map.mp hl
    exact dlm_not_mem_escSeg s0
  have hsplit : splitOnC dlm (encode segs fromLine toLine uid)
      = [joinSegs sep (segs.map escSeg), natChars fromLine, natChars toLine,
          natChars uid] := by
    unfold encode
    rw [splitOnC_append dlm _ _ hpath_dlm]
    rw [splitOnC_append dlm _ _ (dlm_not_mem_natChars fromLine)]
    rw [splitOnC_append dlm _ _ (dlm_not_mem_natChars toLine)]
    rw [splitOnC_not_mem dlm _ (dlm_not_mem_natChars uid)]
  have hsegs : splitOnC sep (joinSegs sep (segs.map escSeg)) = segs.map escSeg := by
    refine splitOnC_joinSegs sep _ ?_ ?_
    · intro l hl
      obtain ⟨s0, hs0, rfl⟩ := List.mem_map.mp hl
      exact sep_not_mem_escSeg s0 (hsep s0 hs0)
    · simpa using hne
  have hmap : segs.map (unescSeg ∘ escSeg) = segs.map id :=
    List.map_congr_left (fun a _ => unescSeg_escSeg a)
  unfold decode
  rw [hsplit]
  show (match parseNatM (natChars fromLine), parseNatM (natChars toLine),
        parseNatM (natChars uid) with
    | some f, some t, some u =>
        some (((splitOnC sep (joinSegs sep (segs.map escSeg))).map unescSeg), f, t, u)
    | _, _, _ => none) = some (segs, fromLine, toLine, uid)
  rw [parseNatM_natChars, parseNatM_natChars, parseNatM_natChars]
  show some (((splitOnC sep (joinSegs sep (segs.map escSeg))).map unescSeg),
      fromLine, toLine, uid) = some (segs, fromLine, toLine, uid)
  rw [hsegs, List.map_map, hmap, List.map_id]

/-- Witness for C1 on the path `src/a é#b%c` (two segments, with a space,
a unicode character, the delimiter and the escape character embedded),
range `[4, 6]`, uid `12345`. -/
theorem decode_encode_witness :
    decode (encode [['s', 'r', 'c'], ['a', ' ', 'é', '\x23', 'b', '%', 'c']] 4 6 12345)
      = some ([['s', 'r', 'c'], ['a', ' ', 'é', '\x23', 'b', '%', 'c']], 4, 6, 12345) :=
  decode_encode [['s', 'r', 'c'], ['a', ' ', 'é', '\x23', 'b', '%', 'c']] 4 6 12345
    (by decide) (by decide)

/-- C7: `isOverlapped(from, to)` is true iff the inclusive ranges share a
line (touching counts), and it is symmetric under swapping the note and the
query range roles. -/
theorem isOverlapped_iff_intersects (note : Note) (fromL toL : Nat)
    (hq : fromL ≤ toL) (hn : note.fromLine ≤ note.toLine) :
    (note.isOverlapped fromL toL = true ↔
        ∃ x, note.fromLine ≤ x ∧ x ≤ note.toLine ∧ fromL ≤ x ∧ x ≤ toL) ∧
      ∀ p u, (Note.mk p fromL toL u).isOverlapped note.fromLine note.toLine
          = note.isOverlapped fromL toL := by
  constructor
  · simp only [Note.isOverlapped, Bool.and_eq_true, decide_eq_true_eq]
    constructor
    · rintro ⟨h1, h2⟩
      exact ⟨max note.fromLine fromL, le_max_left _ _, by omega, le_max_right _ _, by omega⟩
    · rintro ⟨x, hx1, hx2, hx3, hx4⟩
      omega
  · intro p u
    simp only [Note.isOverlapped]
    exact Bool.and_comm _ _

/-- Witness for C7: the spec's boundary-touch example, note `[5,5]` against
query `[5,10]`; the overlap holds and is symmetric. -/
theorem isOverlapped_iff_intersects_witness :
    (Note.mk [] 5 5 0).isOverlapped 5 10 = true ∧
      (((Note.mk [] 5 5 0).isOverlapped 5 10 = true ↔
          ∃ x, 5 ≤ x ∧ x ≤ 5 ∧ 5 ≤ x ∧ x ≤ 10) ∧
        ∀ p u, (Note.mk p 5 10 u).isOverlapped 5 5
            = (Note.mk [] 5 5 0).isOverlapped 5 10) :=
  ⟨by decide, isOverlapped_iff_intersects (Note.mk [] 5 5 0) 5 10 (by decide) (by decide)⟩

/-- Looking up a note path after `removeNoteFile` on that path finds
nothing. -/
theorem lookup_removeNoteFile (p : List Char) (store : NoteStore) :
    (removeNoteFile p store).lookup p = none := by
  induction store with
  | nil => rfl
  | cons e rest ih =>
    obtain ⟨k, v⟩ := e
    by_cases h : k = p
    · simpa [removeNoteFile, List.filter_cons, h] using ih
    · have h2 : (p == k) = false := by
        simp only [beq_eq_false_iff_ne, ne_eq]
        exact fun hh => h hh.symm
      have hd : (decide (k = p)) = false := decide_eq_false h
      simp only [removeNoteFile, List.filter_cons] at ih ⊢
      simp only [hd, Bool.not_false, if_true, List.lookup, h2]
      exact ih

/-- C3 (amended): on closing a document whose path is a note path and whose
note file exists with body `body`, the close handler removes the note file
iff `body` is blank — empty after trimming whitespace (`!body.trim().length`);
a note whose trimmed body is non-empty leaves the storage unchanged. -/
theorem close_removes_iff_blank (isNote : List Char → Bool) (store : NoteStore)
    (p body : List Char) (hn : isNote p = true) (hl : store.lookup p = some body) :
    ((onDidCloseTextDocument isNote store p).lookup p = none ↔
        (trimChars body).length = 0) ∧
      ((trimChars body).length ≠ 0 → onDidCloseTextDocument isNote store p = store) := by
  unfold onDidCloseTextDocument
  rw [hn, hl]
  simp only [if_true]
  by_cases ht : (trimChars body).length = 0
  · rw [if_pos ht]
    exact ⟨⟨fun _ => ht, fun _ => lookup_removeNoteFile p store⟩, fun hc => absurd ht hc⟩
  · rw [if_neg ht]
    refine ⟨⟨fun hc => ?_, fun hc => absurd hc ht⟩, fun _ => rfl⟩
    rw [hl] at hc
    exact Option.noConfusion hc

/-- Witness for C3 at the note path `a#4#6#7` with non-blank body `hi`:
the close handler removes nothing. -/
theorem close_removes_iff_blank_witness :
    ((onDidCloseTextDocument isNotePath [(['a', '\x23', '4', '\x23', '6', '\x23', '7'], ['h', 'i'])]
          ['a', '\x23', '4', '\x23', '6', '\x23', '7']).lookup
          ['a', '\x23', '4', '\x23', '6', '\x23', '7'] = none ↔
        (trimChars ['h', 'i']).length = 0) ∧
      ((trimChars ['h', 'i']).length ≠ 0 →
        onDidCloseTextDocument isNotePath [(['a', '\x23', '4', '\x23', '6', '\x23', '7'], ['h', 'i'])]
            ['a', '\x23', '4', '\x23', '6', '\x23', '7']
          = [(['a', '\x23', '4', '\x23', '6', '\x23', '7'], ['h', 'i'])]) :=
  close_removes_iff_blank isNotePath _ _ _ (by decide) (by decide)

/-- C3 counterexample: closing the note `a#4#6#7` whose body is a single
space — a non-empty body — still removes the note file, refuting "a note
whose body is non-empty when closed is not removed by the close handler". -/
theorem close_removes_nonempty_body :
    ([' '] : List Char) ≠ [] ∧
      onDidCloseTextDocument isNotePath [(['a', '\x23', '4', '\x23', '6', '\x23', '7'], [' '])]
          ['a', '\x23', '4', '\x23', '6', '\x23', '7'] = [] :=
  ⟨by decide, by decide⟩

/-- C4: `linenote.addNote` never overwrites an existing note body — when a
note with identity `(fsPath, fromL, toL)` is already stored with body `body`,
the command leaves the storage unchanged and the body is preserved. -/
theorem addNote_preserves_existing (isNote : List Char → Bool) (store : IdStore)
    (fsPath : List Char) (fromL toL : Nat) (body : List Char)
    (h : store.lookup (fsPath, fromL, toL) = some body) :
    (addNote isNote store fsPath fromL toL).store = store ∧
      (addNote isNote store fsPath fromL toL).store.lookup (fsPath, fromL, toL)
        = some body := by
  unfold addNote
  by_cases hn : isNote fsPath = true
  · simp [hn, h]
  · simp only [Bool.not_eq_true] at hn
    simp [hn, h]

/-- Witness for C4: adding over the existing note `(a, 1, 2)` with body `x`
leaves the storage and the stored body unchanged. -/
theorem addNote_preserves_existing_witness :
    (addNote (fun _ => false) [((['a'], 1, 2), ['x'])] ['a'] 1 2).store
        = [((['a'], 1, 2), ['x'])] ∧
      (addNote (fun _ => false) [((['a'], 1, 2), ['x'])] ['a'] 1 2).store.lookup
          (['a'], 1, 2) = some ['x'] :=
  addNote_preserves_existing (fun _ => false) _ ['a'] 1 2 ['x'] (by decide)

/-- C9: when the active document's path is a note path, `linenote.addNote`
returns early (storage unchanged, nothing opened), the cursor branch of
`linenote.openNote` opens nothing, and the cursor branch of
`linenote.removeNote` removes nothing, refreshes nothing and leaves the notes
on disk unchanged. -/
theorem commands_skip_note_paths (isNote : List Char → Bool) (store : IdStore)
    (notes : List Note) (fsPath : List Char) (fromL toL : Nat)
    (h : isNote fsPath = true) :
    addNote isNote store fsPath fromL toL = ⟨store, none⟩ ∧
      openNoteCursor isNote notes fsPath fromL toL = [] ∧
      removeNoteCursor isNote notes fsPath fromL toL = ⟨none, false⟩ ∧
      removeNoteCursorDisk isNote notes fsPath fromL toL = notes := by
  refine ⟨?_, ?_, ?_, ?_⟩ <;>
    simp [addNote, openNoteCursor, removeNoteCursor, removeNoteCursorDisk, h]

/-- Witness for C9 at the note path `a#4#6#7`: all three commands are
no-ops. -/
theorem commands_skip_note_paths_witness :
    addNote isNotePath [(((['s'] : List Char), 1, 2), ['x'])]
        ['a', '\x23', '4', '\x23', '6', '\x23', '7'] 1 2
      = ⟨[(((['s'] : List Char), 1, 2), ['x'])], none⟩ ∧
      openNoteCursor isNotePath [Note.mk ['s'] 1 2 0]
          ['a', '\x23', '4', '\x23', '6', '\x23', '7'] 1 2 = [] ∧
      removeNoteCursor isNotePath [Note.mk ['s'] 1 2 0]
          ['a', '\x23', '4', '\x23', '6', '\x23', '7'] 1 2 = ⟨none, false⟩ ∧
      removeNoteCursorDisk isNotePath [Note.mk ['s'] 1 2 0]
          ['a', '\x23', '4', '\x23', '6', '\x23', '7'] 1 2 = [Note.mk ['s'] 1 2 0] :=
  commands_skip_note_paths isNotePath _ _ _ 1 2 (by decide)

/-- A successful `find?` finds a satisfying element and everything before it
in the list fails the predicate. -/
theorem find?_eq_some_split {p : Note → Bool} {l : List Note} {n : Note}
    (h : l.find? p = some n) :
    p n = true ∧ ∃ pre post, l = pre ++ n :: post ∧ ∀ m ∈ pre, p m = false := by
  induction l with
  | nil => simp at h
  | cons a rest ih =>
    rw [List.find?_cons] at h
    cases ha : p a with
    | true =>
      rw [ha] at h
      have han : a = n := by
        simpa using h
      subst han
      exact ⟨ha, [], rest, rfl, by simp⟩
    | false =>
      rw [ha] at h
      obtain ⟨hp, pre, post, heq, hall⟩ := ih h
      refine ⟨hp, a :: pre, post, by rw [heq]; rfl, ?_⟩
      intro m hm
      rcases List.mem_cons.mp hm with rfl | hm2
      · exact ha
      · exact hall m hm2

/-- C10: the cursor branch of `linenote.removeNote` removes at most one note
— the first of the corresponding sequence that overlaps the selection — and
leaves every other note on disk; when no note overlaps, nothing is removed
and no decoration refresh is triggered. -/
theorem removeNote_removes_first_only (isNote : List Char → Bool)
    (notes : List Note) (fsPath : List Char) (fromL toL : Nat)
    (h : isNote fsPath = false) :
    (∀ n, (removeNoteCursor isNote notes fsPath fromL toL).removed = some n →
        n.isOverlapped fromL toL = true ∧
          (∃ pre post, notes = pre ++ n :: post ∧
              ∀ m ∈ pre, m.isOverlapped fromL toL = false) ∧
          ∀ m ∈ notes, m ≠ n →
            m ∈ removeNoteCursorDisk isNote notes fsPath fromL toL) ∧
      ((∀ m ∈ notes, m.isOverlapped fromL toL = false) →
        removeNoteCursor isNote notes fsPath fromL toL = ⟨none, false⟩ ∧
          removeNoteCursorDisk isNote notes fsPath fromL toL = notes) := by
  constructor
  · intro n hrem
    unfold removeNoteCursor at hrem
    rw [h] at hrem
    simp only [Bool.false_eq_true, if_false] at hrem
    cases hf : notes.find? (fun m => m.isOverlapped fromL toL) with
    | none => rw [hf] at hrem; exact Option.noConfusion hrem
    | some n0 =>
      rw [hf] at hrem
      have hn0 : n0 = n := by simpa using hrem
      subst hn0
      obtain ⟨hp, pre, post, heq, hall⟩ := find?_eq_some_split hf
      refine ⟨hp, ⟨pre, post, heq, hall⟩, ?_⟩
      intro m hm hmn
      unfold removeNoteCursorDisk removeNoteCursor
      rw [h]
      simp only [Bool.false_eq_true, if_false, hf]
      exact (List.mem_erase_of_ne hmn).mpr hm
  · intro hall
    have hf : notes.find? (fun m => m.isOverlapped fromL toL) = none :=
      List.find?_eq_none.mpr (fun m hm => by simp [hall m hm])
    constructor
    · unfold removeNoteCursor
      rw [h]
      simp [hf]
    · unfold removeNoteCursorDisk removeNoteCursor
      rw [h]
      simp [hf]

/-- Witness for C10 with one non-overlapping note: nothing is removed, no
refresh happens, the disk is unchanged. -/
theorem removeNote_removes_first_only_witness :
    removeNoteCursor (fun _ => false) [Note.mk ['a'] 1 2 0] ['a'] 5 5
        = ⟨none, false⟩ ∧
      removeNoteCursorDisk (fun _ => false) [Note.mk ['a'] 1 2 0] ['a'] 5 5
        = [Note.mk ['a'] 1 2 0] :=
  (removeNote_removes_first_only (fun _ => false) [Note.mk ['a'] 1 2 0] ['a'] 5 5 rfl).2
    (by decide)

/-- C2 counterexample: a change event on a document that is not the active
editor's document (document `1` while document `0` is active) schedules no
range recomputation at all, refuting "on every document-change event, each
note's line range for that document is recomputed". -/
theorem change_event_nonactive_ignored :
    onDidChangeTextDocument (some 0) 1 = false := rfl

/-- C2 (amended): on a change event for the active editor's document the
handler does schedule recomputation, and reconciling a note whose range lies
entirely after the edit region shifts both `fromLine` and `toLine` by the net
line-count delta of the edit. -/
theorem change_reconciles_shift (activeDoc : Nat) (e : Edit) (fromL toL : Nat)
    (hbefore : e.startLine + e.deleted ≤ fromL) (hft : fromL ≤ toL) :
    onDidChangeTextDocument (some activeDoc) activeDoc = true ∧
      reconcileNote e fromL toL
        = .shifted (fromL + e.inserted - e.deleted) (toL + e.inserted - e.deleted) ∧
      ((fromL + e.inserted - e.deleted : Nat) : Int)
          = (fromL : Int) + ((e.inserted : Int) - (e.deleted : Int)) ∧
      ((toL + e.inserted - e.deleted : Nat) : Int)
          = (toL : Int) + ((e.inserted : Int) - (e.deleted : Int)) := by
  refine ⟨by simp [onDidChangeTextDocument], ?_, by omega, by omega⟩
  unfold reconcileNote
  rw [if_pos hbefore]

/-- Witness for C2 at the spec's example: a 10-line document with a note at
`[4,6]`; inserting 3 lines before line 2 shifts the note to `[7,9]`. -/
theorem change_reconciles_shift_witness :
    onDidChangeTextDocument (some 0) 0 = true ∧
      reconcileNote ⟨2, 0, 3⟩ 4 6 = .shifted 7 9 ∧
      ((4 + 3 - 0 : Nat) : Int) = (4 : Int) + ((3 : Int) - (0 : Int)) ∧
      ((6 + 3 - 0 : Nat) : Int) = (6 : Int) + ((3 : Int) - (0 : Int)) :=
  change_reconciles_shift 0 ⟨2, 0, 3⟩ 4 6 (by decide) (by decide)

end Linenote
